import Mathlib

/-!
Shallow embedding of the gobuild hot-rebuild orchestrator (src/gobuild.go).

Pure helper routines of the source (splitArgs, appendArg, getExts, getAppName,
recursivePaths and the argument-list construction inside Build) are translated
here as executable Lean functions.  The file-system walk performed by
filepath.Walk is modelled by an explicit tree type; the Go standard library
path helpers (filepath.Base, filepath.Join, filepath.Abs, filepath.Separator)
are modelled lexically for a Unix platform, without the lexical Clean step,
and filepath.Abs takes the working directory as an explicit Option parameter
(none models a failing os.Getwd).  Strings are compared byte for byte exactly
as the Go code does on the ASCII separators it inspects.
-/

/-- Model of Go strings.TrimSpace on a character list: drop whitespace from
both ends. -/
def trimChars (l : List Char) : List Char :=
  ((l.dropWhile Char.isWhitespace).reverse.dropWhile Char.isWhitespace).reverse

/-- Model of Go strings.TrimSpace on strings. -/
def trimString (s : String) : String := String.mk (trimChars s.data)

/-- Translation of appendArg (src/gobuild.go lines 175-182): trim the argument
and drop it when the trimmed form is empty. -/
def appendArg (args : List String) (arg : String) : List String :=
  let arg := trimString arg
  if arg = "" then args else args ++ [arg]

/-- Translation of the loop body of splitArgs (src/gobuild.go lines 118-173).
The Go loop keeps a slice start index into the input; here the pending
argument characters args[start:index] are carried explicitly.  The state byte
is 0, a space, an equals sign or a double quote, exactly as in the source
(after the equals-sign case the source resets the state to 0, making its
inner guard always true; the guard is kept nevertheless). -/
def splitArgsAux (state : Char) (pending : List Char) (ret : List String) :
    List Char → List String
  | [] => if pending.isEmpty then ret else appendArg ret (String.mk pending)
  | c :: rest =>
    if c = ' ' then
      if state = '"' then splitArgsAux state (pending ++ [c]) ret rest
      else if state ≠ ' ' then
        splitArgsAux ' ' [] (appendArg ret (String.mk pending)) rest
      else splitArgsAux ' ' [] ret rest
    else if c = '=' then
      if state = '"' then splitArgsAux state (pending ++ [c]) ret rest
      else if state ≠ '=' then
        splitArgsAux (Char.ofNat 0) [] (appendArg ret (String.mk pending)) rest
      else splitArgsAux (Char.ofNat 0) [] ret rest
    else if c = '"' then
      if state = '"' then
        splitArgsAux (Char.ofNat 0) [] (appendArg ret (String.mk pending)) rest
      else if pending.isEmpty then splitArgsAux '"' [] ret rest
      else splitArgsAux '"' [] (appendArg ret (String.mk pending)) rest
    else
      if state = ' ' then splitArgsAux (Char.ofNat 0) [c] ret rest
      else splitArgsAux state (pending ++ [c]) ret rest

/-- Translation of splitArgs (src/gobuild.go lines 118-173): tokenize a raw
argument string on spaces, equals signs and double-quoted spans. -/
def splitArgs (args : String) : List String :=
  splitArgsAux (Char.ofNat 0) [] [] args.data

/-- Model of Go strings.Split on a comma separator over character lists. -/
def splitComma : List Char → List (List Char)
  | [] => [[]]
  | c :: rest =>
    if c = ',' then [] :: splitComma rest
    else
      match splitComma rest with
      | [] => [[c]]
      | t :: ts => (c :: t) :: ts

/-- Translation of the loop of getExts (src/gobuild.go lines 213-230): trim
each comma-separated segment, drop empty segments, and prepend a dot to a
segment that does not already start with one. -/
def getExtsSegs : List (List Char) → List String
  | [] => []
  | e :: es =>
    let e := trimChars e
    if e = [] then getExtsSegs es
    else if e.head? = some '.' then String.mk e :: getExtsSegs es
    else String.mk ('.' :: e) :: getExtsSegs es

/-- Translation of getExts (src/gobuild.go lines 213-230). -/
def getExts (extString : String) : List String :=
  getExtsSegs (splitComma extString.data)

/-- Comma-joining of an extension list, the inverse direction of the split
performed by getExts (model of Go strings.Join with a comma separator). -/
def joinComma : List String → String
  | [] => ""
  | [e] => e
  | e :: es => e ++ "," ++ joinComma es

/-- Modelled from the spec: the per-event suffix check of the Watch
Coordinator (the watcher source file is not under src/).  An event path
matches when the extension set contains the literal wildcard entry "*"
(short-circuit, match all files) or when one of the entries is a suffix of
the path. -/
def matchesExt (exts : List String) (path : String) : Bool :=
  exts.any (fun e => e == "*" || e.data.isSuffixOf path.data)

/-- Model of the Unix value of Go filepath.Separator. -/
def separator : Char := '/'

/-- Check whether a string contains a character, model of
strings.IndexByte(s, c) being non-negative for the ASCII bytes inspected by
the source. -/
def strContainsChar (s : String) (c : Char) : Bool := s.data.contains c

/-- Check whether the pattern list is an initial run of the second list. -/
def leadsWith : List Char → List Char → Bool
  | [], _ => true
  | _ :: _, [] => false
  | a :: asx, b :: bs => a == b && leadsWith asx bs

/-- Model of Go strings.HasSuffix. -/
def strEndsWith (s suf : String) : Bool := leadsWith suf.data.reverse s.data.reverse

/-- Model of Go filepath.Base for Unix paths: empty input gives a dot, an
all-slash input gives a slash, otherwise the last component after stripping
trailing slashes. -/
def baseName (p : String) : String :=
  if p = "" then "."
  else if p.data.reverse.dropWhile (fun c => c == '/') = [] then "/"
  else String.mk
    (((p.data.reverse.dropWhile (fun c => c == '/')).takeWhile
      (fun c => c != '/')).reverse)

/-- Model of Go filepath.IsAbs for Unix paths: the path starts with a slash. -/
def isAbs (p : String) : Bool := p.data.head? = some '/'

/-- Model of Go filepath.Join for Unix paths, without the lexical Clean step:
empty parts are skipped and the remaining parts are joined with a slash. -/
def joinPath (a b : String) : String :=
  if a = "" then b else if b = "" then a else a ++ "/" ++ b

/-- Model of Go filepath.Abs: an absolute path is returned as given, a
relative path is joined onto the working directory obtained from os.Getwd;
cwd = none models a failing os.Getwd, the only error source of Abs. -/
def absPath (cwd : Option String) (p : String) : Except String String :=
  if isAbs p then .ok p
  else
    match cwd with
    | none => .error "filepath.Abs: getwd failed"
    | some c => .ok (joinPath c p)

/-- First reassignment of getAppName (src/gobuild.go lines 233-235): an
empty output name defaults to the base name of wd. -/
def appNameStep1 (outputName wd : String) : String :=
  if outputName = "" then baseName wd else outputName

/-- Second reassignment of getAppName (src/gobuild.go lines 237-240): the
GOEXE suffix is appended when it is set and not already a suffix. -/
def appNameStep2 (n goexe : String) : String :=
  if goexe != "" && !(strEndsWith n goexe) then n ++ goexe else n

/-- Third reassignment of getAppName (src/gobuild.go lines 242-245): a name
without a separator is joined onto wd (the source tests the slash byte and
filepath.Separator with a disjunction; on Unix both are the slash). -/
def appNameStep3 (n wd : String) : String :=
  if !(strContainsChar n '/') || !(strContainsChar n separator) then
    joinPath wd n
  else n

/-- Translation of getAppName (src/gobuild.go lines 232-254): the three
sequential reassignments of outputName followed by the resolution to an
absolute path. -/
def getAppName (outputName wd goexe : String) (cwd : Option String) :
    Except String String :=
  absPath cwd (appNameStep3 (appNameStep2 (appNameStep1 outputName wd) goexe) wd)

/-- Translation of the go build argument construction inside Build
(src/gobuild.go lines 56-64).  The Go flags map is modelled as an association
list whose order stands for the map iteration order. -/
def goCmdArgs (appName mainFiles : String) (flags : List (String × String)) :
    List String :=
  let args := ["build", "-o", appName]
  let args := flags.foldl (fun acc kv => acc ++ ["-" ++ kv.1 ++ "flags", kv.2]) args
  let args := args ++ ["-v"]
  if mainFiles.length > 0 then args ++ [mainFiles] else args

/-- File-system tree visited by filepath.Walk: a directory with named
children in lexical visiting order, a plain file, or a node whose visit
reports an error (an unreadable entry), which makes the walk abort. -/
inductive FSTree where
  | dir (name : String) (children : List FSTree)
  | file (name : String)
  | bad (name : String)

/-- Name of the root entry of a tree. -/
def FSTree.name : FSTree → String
  | .dir n _ => n
  | .file n => n
  | .bad n => n

/-- Model of the path filepath.Walk hands to the walk function for a child
entry: the parent path joined with the child name. -/
def childPath (parent name : String) : String := parent ++ "/" ++ name

/-- Test used by the walk function of recursivePaths (src/gobuild.go line
197): strings.Index(path, "/.") is non-negative. -/
def containsSlashDot : List Char → Bool
  | '/' :: '.' :: _ => true
  | _ :: rest => containsSlashDot rest
  | [] => false

mutual
/-- Model of filepath.Walk running the walk function of recursivePaths
(src/gobuild.go lines 192-201) over one tree: visit the node, then the
children; collect a directory path unless it contains the substring slash
dot; abort on the first error. -/
def walkTree (path : String) : FSTree → Except String (List String)
  | .bad _ => .error path
  | .file _ => .ok []
  | .dir _ children => do
      let sub ← walkChildren path children
      pure ((if containsSlashDot path.data then [] else [path]) ++ sub)

/-- Model of filepath.Walk over the child list of a directory, in order. -/
def walkChildren (path : String) : List FSTree → Except String (List String)
  | [] => .ok []
  | t :: ts => do
      let a ← walkTree (childPath path t.name) t
      let b ← walkChildren path ts
      pure (a ++ b)
end

/-- Translation of the root loop of recursivePaths (src/gobuild.go lines
203-207): walk each root in order, concatenating the collected directories;
the first walk error aborts the whole expansion, discarding partial
results. -/
def walkRoots (fs : String → FSTree) : List String → Except String (List String)
  | [] => .ok []
  | p :: ps => do
      let a ← walkTree p (fs p)
      let b ← walkRoots fs ps
      pure (a ++ b)

/-- Translation of recursivePaths (src/gobuild.go lines 185-210).  The file
system is passed as a map from root path to the tree found there. -/
def recursivePaths (fs : String → FSTree) (recursive : Bool)
    (paths : List String) : Except String (List String) :=
  if !recursive then .ok paths else walkRoots fs paths

mutual
/-- Every directory path of a tree, in walk order, with no filtering; the
specification-side description of the subtree of a root. -/
def allDirs (path : String) : FSTree → List String
  | .dir _ children => path :: allDirsChildren path children
  | .file _ => []
  | .bad _ => []

/-- Every directory path below a child list, in walk order. -/
def allDirsChildren (path : String) : List FSTree → List String
  | [] => []
  | t :: ts => allDirs (childPath path t.name) t ++ allDirsChildren path ts
end

mutual
/-- True when no node of the tree reports a walk error. -/
def treeNoBad : FSTree → Bool
  | .dir _ children => treesNoBad children
  | .file _ => true
  | .bad _ => false

/-- True when no node below the child list reports a walk error. -/
def treesNoBad : List FSTree → Bool
  | [] => true
  | t :: ts => treeNoBad t && treesNoBad ts
end

/-- Severity of a log event.  Modelled from the spec: the Log type itself is
declared in a source file that is not under src/; the spec lists the kinds
info, warning, success and error. -/
inductive LogType where
  | info
  | warn
  | succ
  | err
deriving DecidableEq, Repr

/-- Log event: a severity and a message, as sent on the logs channel by
Build. -/
structure Log where
  type : LogType
  message : String
deriving DecidableEq, Repr

/-- Rendering of a Go string slice by fmt.Sprint, used in the messages Build
sends: the elements joined by single spaces inside square brackets. -/
def joinSpace : List String → String
  | [] => ""
  | [x] => x
  | x :: xs => x ++ " " ++ joinSpace xs

/-- Rendering of a Go string slice by fmt.Sprint. -/
def goShowList (l : List String) : String := "[" ++ joinSpace l ++ "]"

/-- Environment of one Build call: the working directory seen by os.Getwd
(none models a failing Getwd), the GOEXE environment variable, the file
system visited by the watch-path expansion, and the result of creating the
file-system watcher (an external collaborator). -/
structure BuildEnv where
  cwd : Option String
  goexe : String
  fs : String → FSTree
  watcherInit : List String → Except String Unit

/-- Outcome of a Build call.  The done constructor stands for the final
return nil statement of Build (src/gobuild.go line 115); the blocked
constructor stands for the receive on a fresh channel that nothing ever
writes (line 114), which never completes, so a call that reaches it stays
blocked forever. -/
inductive BuildOutcome where
  | err (msg : String)
  | blocked
  | done
deriving DecidableEq, Repr

/-- Observable result of a Build call: the outcome, the log events emitted
before blocking or failing, the dir slice after the in-place update of its
first element, and whether watching was started. -/
structure BuildResult where
  outcome : BuildOutcome
  logs : List Log
  dirAfter : List String
  watchStarted : Bool

/-- Translation of the startup sequence of Build (src/gobuild.go lines
34-116): validate the root list, resolve the primary root and write it back
into the dir slice, resolve the output name, build the go command argument
list, tokenize the program arguments, emit the three informational log
events, expand the watch paths, create the watcher, and block forever on a
fresh channel.  Everything after the watcher creation (the watch loop and
the build goroutine) belongs to source files outside src/; the blocking
receive that follows is recorded by the outcome. -/
def BuildModel (env : BuildEnv) (mainFiles outputName : String)
    (flags : List (String × String)) (exts : String) (recursive : Bool)
    (appArgs : String) (dir : List String) : BuildResult :=
  match dir with
  | [] => ⟨.err "参数 dir 至少指定一个", [], [], false⟩
  | d :: ds =>
    match absPath env.cwd d with
    | .error e => ⟨.err e, [], d :: ds, false⟩
    | .ok wd =>
      let dir := wd :: ds
      match getAppName outputName wd env.goexe env.cwd with
      | .error e => ⟨.err e, [], dir, false⟩
      | .ok appName =>
        let goArgs := goCmdArgs appName mainFiles flags
        let bexts := getExts exts
        let bAppArgs := splitArgs appArgs
        let logs : List Log :=
          [⟨.info, "给程序传递了以下参数：" ++ goShowList bAppArgs⟩]
        let logs := logs ++
          (if bexts.length = 0 then
            [⟨.warn, "将 ext 设置为空值，意味着不监视任何文件的改变！"⟩]
          else
            [⟨.info, "系统将监视以下类型的文件:" ++ goShowList bexts⟩])
        let logs := logs ++ [⟨.info, "输出文件为:" ++ appName⟩]
        let _ := goArgs
        match recursivePaths env.fs recursive dir with
        | .error e => ⟨.err e, logs, dir, false⟩
        | .ok paths =>
          match env.watcherInit paths with
          | .error e => ⟨.err e, logs, dir, false⟩
          | .ok _ => ⟨.blocked, logs, dir, true⟩

/-! Helper lemmas about dropWhile and trimming. -/

theorem length_dropWhile_le {α : Type} (p : α → Bool) (l : List α) :
    (l.dropWhile p).length ≤ l.length := by
  induction l with
  | nil => simp
  | cons a t ih =>
    by_cases h : p a
    · rw [List.dropWhile_cons, if_pos h]
      exact Nat.le_trans ih (Nat.le_succ _)
    · rw [List.dropWhile_cons, if_neg h]

theorem dropWhile_dropWhile {α : Type} (p : α → Bool) (l : List α) :
    (l.dropWhile p).dropWhile p = l.dropWhile p := by
  induction l with
  | nil => rfl
  | cons a t ih =>
    by_cases h : p a
    · simp [List.dropWhile_cons, h, ih]
    · simp [List.dropWhile_cons, h]

theorem dropWhile_head_false {α : Type} {p : α → Bool} :
    ∀ {x : List α} {a : α} {t : List α}, x.dropWhile p = a :: t → p a = false := by
  intro x
  induction x with
  | nil => intro a t h; exact absurd h (by simp)
  | cons c cs ih =>
    intro a t h
    by_cases hc : p c
    · rw [List.dropWhile_cons, if_pos hc] at h
      exact ih h
    · rw [List.dropWhile_cons, if_neg hc] at h
      cases h
      exact Bool.eq_false_iff.mpr hc

theorem dropWhile_append_singleton {α : Type} {p : α → Bool} {a : α}
    (h : p a = false) (xs : List α) :
    (xs ++ [a]).dropWhile p = xs.dropWhile p ++ [a] := by
  induction xs with
  | nil => simp [List.dropWhile_cons, h]
  | cons x xs ih =>
    by_cases hx : p x
    · simp [List.dropWhile_cons, hx, ih]
    · simp [List.dropWhile_cons, hx]

theorem dropWhile_append_of_eq_self {α : Type} {p : α → Bool} {l : List α}
    (h : l.dropWhile p = l) (hne : l ≠ []) (m : List α) :
    (l ++ m).dropWhile p = l ++ m := by
  cases l with
  | nil => exact absurd rfl hne
  | cons a t =>
    have ha : p a = false := dropWhile_head_false h
    simp [List.dropWhile_cons, ha]

theorem dropWhile_eq_self_of_length {α : Type} {p : α → Bool} :
    ∀ {l : List α}, (l.dropWhile p).length = l.length → l.dropWhile p = l := by
  intro l
  induction l with
  | nil => intro _; rfl
  | cons a t ih =>
    intro h
    by_cases ha : p a
    · rw [List.dropWhile_cons, if_pos ha] at h ⊢
      rw [List.length_cons] at h
      have := length_dropWhile_le p t
      omega
    · rw [List.dropWhile_cons, if_neg ha]

theorem trimChars_eq_self_parts {u : List Char} (h : trimChars u = u) :
    u.dropWhile Char.isWhitespace = u ∧
    u.reverse.dropWhile Char.isWhitespace = u.reverse := by
  have hlen1 : ((u.dropWhile Char.isWhitespace).reverse.dropWhile
      Char.isWhitespace).length ≤ (u.dropWhile Char.isWhitespace).length := by
    have := length_dropWhile_le Char.isWhitespace
      (u.dropWhile Char.isWhitespace).reverse
    simpa using this
  have hlen2 : (u.dropWhile Char.isWhitespace).length ≤ u.length :=
    length_dropWhile_le _ u
  have hlen0 : (trimChars u).length = u.length := by rw [h]
  have hlen0' : ((u.dropWhile Char.isWhitespace).reverse.dropWhile
      Char.isWhitespace).length = u.length := by
    simpa [trimChars] using hlen0
  have hA : u.dropWhile Char.isWhitespace = u :=
    dropWhile_eq_self_of_length (by omega)
  refine ⟨hA, ?_⟩
  have : (u.reverse.dropWhile Char.isWhitespace).length = u.reverse.length := by
    rw [hA] at hlen0'
    simpa using hlen0'
  exact dropWhile_eq_self_of_length this

theorem trimChars_idem (l : List Char) : trimChars (trimChars l) = trimChars l := by
  set ws := Char.isWhitespace with hws
  set A := l.dropWhile ws with hA
  have hAfix : A.dropWhile ws = A := by
    rw [hA]; exact dropWhile_dropWhile ws l
  have htl : trimChars l = (A.reverse.dropWhile ws).reverse := rfl
  have hfix : (trimChars l).dropWhile ws = trimChars l := by
    rw [htl]
    cases hcase : A with
    | nil => simp
    | cons a t =>
      have ha : ws a = false := dropWhile_head_false (hcase ▸ hAfix)
      have : (t.reverse ++ [a]).dropWhile ws = t.reverse.dropWhile ws ++ [a] :=
        dropWhile_append_singleton ha t.reverse
      rw [List.reverse_cons, this, List.reverse_append]
      simp [List.dropWhile_cons, ha]
  show ((((trimChars l).dropWhile ws).reverse.dropWhile ws).reverse) = trimChars l
  rw [hfix, htl]
  rw [List.reverse_reverse, dropWhile_dropWhile]

theorem trimString_idem (s : String) : trimString (trimString s) = trimString s := by
  simp only [trimString]
  rw [trimChars_idem]

theorem mem_of_mem_dropWhile {α : Type} {p : α → Bool} {a : α} :
    ∀ {l : List α}, a ∈ l.dropWhile p → a ∈ l := by
  intro l
  induction l with
  | nil => intro h; simp at h
  | cons c cs ih =>
    intro h
    by_cases hc : p c
    · rw [List.dropWhile_cons, if_pos hc] at h
      exact List.mem_cons_of_mem c (ih h)
    · rw [List.dropWhile_cons, if_neg hc] at h
      exact h

theorem mem_of_mem_trimChars {a : Char} {l : List Char} (h : a ∈ trimChars l) :
    a ∈ l := by
  simp only [trimChars] at h
  rw [List.mem_reverse] at h
  have h1 := mem_of_mem_dropWhile h
  rw [List.mem_reverse] at h1
  exact mem_of_mem_dropWhile h1

/-! Tokenizer lemmas. -/

theorem appendArg_mem {ret : List String} {s t : String}
    (h : t ∈ appendArg ret s) : t ∈ ret ∨ (trimString s ≠ "" ∧ t = trimString s) := by
  simp only [appendArg] at h
  split at h
  · exact Or.inl h
  · rcases List.mem_append.mp h with h1 | h1
    · exact Or.inl h1
    · rcases List.mem_singleton.mp h1 with rfl
      rename_i hne
      exact Or.inr ⟨hne, rfl⟩

theorem splitArgsAux_pres (P : String → Prop)
    (hP : ∀ s : String, trimString s ≠ "" → P (trimString s)) :
    ∀ (l : List Char) (state : Char) (pending : List Char) (ret : List String),
      (∀ t ∈ ret, P t) → ∀ t ∈ splitArgsAux state pending ret l, P t := by
  intro l
  induction l with
  | nil =>
    intro state pending ret hret t ht
    simp only [splitArgsAux] at ht
    split at ht
    · exact hret t ht
    · rcases appendArg_mem ht with h | ⟨hne, rfl⟩
      · exact hret t h
      · exact hP _ hne
  | cons c cs ih =>
    intro state pending ret hret t ht
    have happ : ∀ s : String, ∀ u ∈ appendArg ret s, P u := by
      intro s u hu
      rcases appendArg_mem hu with h | ⟨hne, rfl⟩
      · exact hret u h
      · exact hP _ hne
    simp only [splitArgsAux] at ht
    split_ifs at ht <;>
      first
        | exact ih _ _ _ hret t ht
        | exact ih _ _ _ (happ _) t ht

/-- C4: every token returned by the Argument Tokenizer is non-empty after
trimming: for every input string, no token of splitArgs is the empty string
and every token is its own trimmed form (hence not all-whitespace), including
the tokens produced by empty quoted spans and by runs of separators. -/
theorem splitArgs_tokens_nonempty (s t : String) (h : t ∈ splitArgs s) :
    t ≠ "" ∧ trimString t = t := by
  refine splitArgsAux_pres (fun u => u ≠ "" ∧ trimString u = u) ?_
    s.data (Char.ofNat 0) [] [] ?_ t h
  · intro u hu
    exact ⟨hu, trimString_idem u⟩
  · intro u hu
    simp at hu

/-- Witness for splitArgs_tokens_nonempty at a concrete input. -/
theorem splitArgs_tokens_nonempty_witness :
    ("a" ∈ splitArgs " a  b ") ∧ ("a" ≠ "" ∧ trimString "a" = "a") :=
  ⟨by decide, splitArgs_tokens_nonempty " a  b " "a" (by decide)⟩

/-- C5: the Argument Tokenizer satisfies the concrete examples of the spec:
a doubled space collapses, an equals sign splits key from value, a quoted
span keeps its internal space as one token, and an unterminated quote at the
end of the input still flushes the remainder as a token. -/
theorem splitArgs_examples :
    splitArgs " a  b " = ["a", "b"] ∧
    splitArgs "k=\"v x\"" = ["k", "v x"] ∧
    splitArgs "a=b" = ["a", "b"] ∧
    splitArgs "k=\"v x" = ["k", "v x"] := by
  refine ⟨?_, ?_, ?_, ?_⟩ <;> decide

/-! Extension filter lemmas. -/

theorem splitComma_no_comma : ∀ (l : List Char), ∀ t ∈ splitComma l, ',' ∉ t := by
  intro l
  induction l with
  | nil =>
    intro t ht
    rcases List.mem_singleton.mp ht with rfl
    simp
  | cons c cs ih =>
    intro t ht
    simp only [splitComma] at ht
    by_cases hc : c = ','
    · rw [if_pos hc] at ht
      rcases List.mem_cons.mp ht with rfl | h
      · simp
      · exact ih t h
    · rw [if_neg hc] at ht
      cases hsp : splitComma cs with
      | nil =>
        rw [hsp] at ht
        rcases List.mem_singleton.mp ht with rfl
        intro hmem
        exact hc (List.mem_singleton.mp hmem).symm
      | cons t0 ts =>
        rw [hsp] at ht
        rcases List.mem_cons.mp ht with rfl | h
        · intro hmem
          rcases List.mem_cons.mp hmem with h1 | h1
          · exact hc h1.symm
          · exact ih t0 (hsp ▸ List.mem_cons_self t0 ts) h1
        · exact ih t (hsp ▸ List.mem_cons_of_mem t0 h)

theorem splitComma_of_no_comma {l : List Char} (h : ',' ∉ l) :
    splitComma l = [l] := by
  induction l with
  | nil => rfl
  | cons c cs ih =>
    have hc : c ≠ ',' := fun hcc => h (hcc ▸ List.mem_cons_self c cs)
    have hcs : ',' ∉ cs := fun hmem => h (List.mem_cons_of_mem c hmem)
    simp only [splitComma, if_neg (fun hcc => hc (by simpa using hcc))]
    rw [ih hcs]

theorem splitComma_append_comma {t : List Char} (h : ',' ∉ t) (r : List Char) :
    splitComma (t ++ ',' :: r) = t :: splitComma r := by
  induction t with
  | nil => simp [splitComma]
  | cons c cs ih =>
    have hc : c ≠ ',' := fun hcc => h (hcc ▸ List.mem_cons_self c cs)
    have hcs : ',' ∉ cs := fun hmem => h (List.mem_cons_of_mem c hmem)
    simp only [List.cons_append, splitComma, List.append_eq,
      if_neg (fun hcc => hc (by simpa using hcc))]
    rw [ih hcs]

theorem splitComma_joinComma :
    ∀ (ts : List String), ts ≠ [] → (∀ t ∈ ts, ',' ∉ t.data) →
      splitComma (joinComma ts).data = ts.map String.data := by
  intro ts
  induction ts with
  | nil => intro h; exact absurd rfl h
  | cons a rest ih =>
    intro _ hnc
    cases rest with
    | nil =>
      simp only [joinComma, List.map]
      exact splitComma_of_no_comma (hnc a (List.mem_cons_self a []))
    | cons b rest2 =>
      have hdata : (joinComma (a :: b :: rest2)).data
          = a.data ++ ',' :: (joinComma (b :: rest2)).data := by
        show (a ++ "," ++ joinComma (b :: rest2)).data
          = a.data ++ ',' :: (joinComma (b :: rest2)).data
        simp
      rw [hdata, splitComma_append_comma (hnc a (List.mem_cons_self a _))]
      rw [ih (by simp) (fun t ht => hnc t (List.mem_cons_of_mem a ht))]
      rfl

theorem trimChars_dotCons {u : List Char} (hu : trimChars u = u) (hne : u ≠ []) :
    trimChars ('.' :: u) = '.' :: u := by
  obtain ⟨h1, h2⟩ := trimChars_eq_self_parts hu
  have hdot : Char.isWhitespace '.' = false := by decide
  have hrevne : u.reverse ≠ [] := by
    intro hrev
    exact hne (by simpa using congrArg List.reverse hrev)
  show (((('.' :: u).dropWhile Char.isWhitespace).reverse).dropWhile
      Char.isWhitespace).reverse = '.' :: u
  rw [List.dropWhile_cons, if_neg (by simp [hdot])]
  rw [List.reverse_cons]
  rw [dropWhile_append_of_eq_self h2 hrevne ['.']]
  rw [List.reverse_append]
  simp

theorem getExtsSegs_mem :
    ∀ (segs : List (List Char)), (∀ e ∈ segs, ',' ∉ e) →
      ∀ t ∈ getExtsSegs segs,
        t.data ≠ [] ∧ trimChars t.data = t.data ∧
        t.data.head? = some '.' ∧ ',' ∉ t.data := by
  intro segs
  induction segs with
  | nil => intro _ t ht; simp [getExtsSegs] at ht
  | cons e es ih =>
    intro hnc t ht
    have hnce : ',' ∉ e := hnc e (List.mem_cons_self e es)
    have hnces : ∀ e' ∈ es, ',' ∉ e' := fun e' he' => hnc e' (List.mem_cons_of_mem e he')
    have hnctrim : ',' ∉ trimChars e := fun hmem => hnce (mem_of_mem_trimChars hmem)
    simp only [getExtsSegs] at ht
    split_ifs at ht with h1 h2
    · exact ih hnces t ht
    · rcases List.mem_cons.mp ht with rfl | h
      · refine ⟨h1, ?_, h2, hnctrim⟩
        exact trimChars_idem e
      · exact ih hnces t h
    · rcases List.mem_cons.mp ht with rfl | h
      · refine ⟨by simp, ?_, rfl, ?_⟩
        · exact trimChars_dotCons (trimChars_idem e) h1
        · intro hmem
          rcases List.mem_cons.mp hmem with h3 | h3
          · exact absurd h3.symm (by decide)
          · exact hnctrim h3
      · exact ih hnces t h

theorem getExtsSegs_fixed :
    ∀ (segs : List (List Char)),
      (∀ e ∈ segs, e ≠ [] ∧ trimChars e = e ∧ e.head? = some '.') →
      getExtsSegs segs = segs.map String.mk := by
  intro segs
  induction segs with
  | nil => intro _; rfl
  | cons e es ih =>
    intro h
    obtain ⟨hne, htrim, hhead⟩ := h e (List.mem_cons_self e es)
    have hrest := ih (fun e' he' => h e' (List.mem_cons_of_mem e he'))
    simp [getExtsSegs, htrim, hne, hhead, hrest]

/-- C6: the Extension Filter is idempotent on its own output: re-applying
getExts to the comma-joined result returns that result unchanged, and the
two concrete examples of the spec hold. -/
theorem getExts_idem :
    (∀ s : String, getExts (joinComma (getExts s)) = getExts s) ∧
    getExts " go, .tpl ,, html" = [".go", ".tpl", ".html"] ∧
    getExts "" = [] := by
  refine ⟨?_, by decide, by decide⟩
  intro s
  cases hout : getExts s with
  | nil => decide
  | cons o os =>
    have hmem : ∀ t ∈ o :: os,
        t.data ≠ [] ∧ trimChars t.data = t.data ∧
        t.data.head? = some '.' ∧ ',' ∉ t.data := by
      intro t ht
      exact getExtsSegs_mem (splitComma s.data) (splitComma_no_comma s.data) t
        (by rw [← getExts, hout]; exact ht)
    have hsplit : splitComma (joinComma (o :: os)).data = (o :: os).map String.data :=
      splitComma_joinComma (o :: os) (by simp)
        (fun t ht => (hmem t ht).2.2.2)
    show getExtsSegs (splitComma (joinComma (o :: os)).data) = o :: os
    rw [hsplit]
    rw [getExtsSegs_fixed ((o :: os).map String.data) ?props]
    · rw [List.map_map]
      have : (String.mk ∘ String.data) = id := by
        funext x
        rfl
      rw [this, List.map_id]
    · intro e he
      rcases List.mem_map.mp he with ⟨t, ht, rfl⟩
      obtain ⟨a, b, c, _⟩ := hmem t ht
      exact ⟨a, b, c⟩

/-- C1: evaluation of the Extension Filter at the reserved wildcard input.
The source prepends a dot to every entry that does not already start with
one, so the literal star becomes the ordinary dot-prefixed suffix dot-star
instead of the documented match-all wildcard entry star, and the per-event
suffix check (modelled from the spec) then fails to match an ordinary file
name. -/
theorem getExts_star_not_wildcard :
    getExts "*" = [".*"] ∧ matchesExt (getExts "*") "main.go" = false := by
  decide

/-! Path expander lemmas. -/

theorem except_ok_bind {ε α β : Type} (a : α) (f : α → Except ε β) :
    (Except.ok a >>= f : Except ε β) = f a := rfl

mutual
theorem walkTree_noBad (path : String) (t : FSTree) (h : treeNoBad t = true) :
    walkTree path t =
      .ok ((allDirs path t).filter (fun q => !containsSlashDot q.data)) := by
  cases t with
  | bad n => simp [treeNoBad] at h
  | file n => simp [walkTree, allDirs]
  | dir n children =>
    have hch : treesNoBad children = true := by simpa [treeNoBad] using h
    have hrec := walkChildren_noBad path children hch
    by_cases hp : containsSlashDot path.data
    · simp [walkTree, hrec, allDirs, List.filter_cons, hp]
    · simp [walkTree, hrec, allDirs, List.filter_cons, hp]

theorem walkChildren_noBad (path : String) (ts : List FSTree)
    (h : treesNoBad ts = true) :
    walkChildren path ts =
      .ok ((allDirsChildren path ts).filter (fun q => !containsSlashDot q.data)) := by
  cases ts with
  | nil => simp [walkChildren, allDirsChildren]
  | cons t ts2 =>
    have h1 : treeNoBad t = true := by
      have := h
      simp only [treesNoBad, Bool.and_eq_true] at this
      exact this.1
    have h2 : treesNoBad ts2 = true := by
      have := h
      simp only [treesNoBad, Bool.and_eq_true] at this
      exact this.2
    have hr1 := walkTree_noBad (childPath path t.name) t h1
    have hr2 := walkChildren_noBad path ts2 h2
    simp [walkChildren, hr1, hr2, allDirsChildren, List.filter_append, except_ok_bind]
end

theorem walkRoots_noBad (fs : String → FSTree) :
    ∀ (paths : List String), (∀ p ∈ paths, treeNoBad (fs p) = true) →
      walkRoots fs paths =
        .ok ((paths.map (fun p => allDirs p (fs p))).flatten.filter
          (fun q => !containsSlashDot q.data)) := by
  intro paths
  induction paths with
  | nil => intro _; simp [walkRoots]
  | cons p ps ih =>
    intro h
    have h1 : treeNoBad (fs p) = true := h p (List.mem_cons_self p ps)
    have h2 := ih (fun q hq => h q (List.mem_cons_of_mem p hq))
    simp [walkRoots, walkTree_noBad p (fs p) h1, h2, List.filter_append, except_ok_bind]

/-- File system holding a recursive root whose own name starts with a dot:
the tree found at the root is a dot-git directory with one subdirectory. -/
def fsGit : String → FSTree :=
  fun _ => FSTree.dir ".git" [FSTree.dir "sub" []]

/-- File system holding a root directory that contains a dot-git directory
as a proper descendant, next to an ordinary source directory. -/
def fsHidden : String → FSTree :=
  fun _ => FSTree.dir "root"
    [FSTree.dir ".git" [FSTree.dir "x" []], FSTree.dir "src" []]

/-- C2 counterexample: a relative root whose first segment starts with a dot
is kept by the recursive Path Expander together with its whole subtree,
because the source filters on the substring slash-dot, which never occurs at
the very start of a relative root path.  The claim states that for every
root the dot-git directory and its descendants are absent; here the root
itself is a dot-git directory and both it and its child are in the result. -/
theorem recursivePaths_dotgit_root_kept :
    recursivePaths fsGit true [".git"] = .ok [".git", ".git/sub"] := by rfl

/-- C2 amended: when the recursive flag is set and every walk succeeds, the
result contains exactly those directories of each root subtree whose walk
path does not contain the substring slash-dot, in walk order and including
the root itself; equivalently, hidden-directory exclusion applies to every
segment strictly below the given root string, but not to a leading dot
segment of a relative root. -/
theorem recursivePaths_filter (fs : String → FSTree) (paths : List String)
    (h : ∀ p ∈ paths, treeNoBad (fs p) = true) :
    recursivePaths fs true paths =
      .ok ((paths.map (fun p => allDirs p (fs p))).flatten.filter
        (fun q => !containsSlashDot q.data)) := by
  simpa [recursivePaths] using walkRoots_noBad fs paths h

/-- Witness for recursivePaths_filter at a concrete tree containing a
dot-git directory below the root: the dot-git directory and its descendant
are filtered out, the root and its ordinary child remain. -/
theorem recursivePaths_filter_witness :
    recursivePaths fsHidden true ["r"] =
      .ok (((["r"].map (fun p => allDirs p (fsHidden p))).flatten).filter
        (fun q => !containsSlashDot q.data)) ∧
    (((["r"].map (fun p => allDirs p (fsHidden p))).flatten).filter
        (fun q => !containsSlashDot q.data)) = ["r", "r/src"] :=
  ⟨recursivePaths_filter fsHidden ["r"] (by decide), by rfl⟩

/-! Output-name resolution lemmas. -/

theorem str_eq_empty_iff (s : String) : s = "" ↔ s.data = [] := by
  cases s with
  | mk d =>
    constructor
    · intro h
      exact congrArg String.data h
    · intro h
      rw [show d = ([] : List Char) from h]

theorem baseName_ne_empty (p : String) : baseName p ≠ "" := by
  by_cases h0 : p = ""
  · simp [baseName, h0]
  · by_cases h1 : p.data.reverse.dropWhile (fun c => c == '/') = []
    · simp [baseName, h0, h1]
    · simp only [baseName, if_neg h0, if_neg h1]
      cases hl : p.data.reverse.dropWhile (fun c => c == '/') with
      | nil => exact absurd hl h1
      | cons a t =>
        have ha : (a == '/') = false :=
          dropWhile_head_false (p := fun c => c == '/') hl
        have ha2 : (a != '/') = true := by
          simp only [bne, ha, Bool.not_false]
        rw [List.takeWhile_cons, if_pos ha2]
        intro hcontra
        have := (str_eq_empty_iff _).mp hcontra
        simp at this

theorem leadsWith_self_append : ∀ (p y : List Char), leadsWith p (p ++ y) = true := by
  intro p y
  induction p with
  | nil => rfl
  | cons a p ih => simp [leadsWith, ih]

theorem leadsWith_append_right :
    ∀ (p x : List Char), leadsWith p x = true → ∀ y, leadsWith p (x ++ y) = true := by
  intro p
  induction p with
  | nil => intro x _ y; rfl
  | cons a p ih =>
    intro x h y
    cases x with
    | nil => simp [leadsWith] at h
    | cons b x2 =>
      simp only [leadsWith, Bool.and_eq_true] at h
      simp only [List.cons_append, leadsWith, Bool.and_eq_true]
      exact ⟨h.1, ih x2 h.2 y⟩

theorem strEndsWith_append_self (x g : String) : strEndsWith (x ++ g) g = true := by
  simp only [strEndsWith]
  have : (x ++ g).data = x.data ++ g.data := rfl
  rw [this, List.reverse_append]
  exact leadsWith_self_append g.data.reverse x.data.reverse

theorem strEndsWith_left_append (a b g : String) (h : strEndsWith b g = true) :
    strEndsWith (a ++ b) g = true := by
  simp only [strEndsWith] at h ⊢
  have : (a ++ b).data = a.data ++ b.data := rfl
  rw [this, List.reverse_append]
  exact leadsWith_append_right g.data.reverse b.data.reverse h a.data.reverse

theorem strEndsWith_ne_empty {x g : String} (hg : g ≠ "")
    (h : strEndsWith x g = true) : x ≠ "" := by
  intro hx
  subst hx
  have hgd : g.data ≠ [] := fun hd => hg ((str_eq_empty_iff g).mpr hd)
  cases hrev : g.data.reverse with
  | nil =>
    exact hgd (by simpa using congrArg List.reverse hrev)
  | cons a t =>
    simp only [strEndsWith, hrev] at h
    have : ("" : String).data.reverse = [] := rfl
    rw [this] at h
    simp [leadsWith] at h

theorem isAbs_ne_empty {c : String} (h : isAbs c = true) : c ≠ "" := by
  intro hc
  subst hc
  simp [isAbs] at h

theorem isAbs_append (c x : String) (h : isAbs c = true) :
    isAbs (c ++ x) = true := by
  simp only [isAbs] at h ⊢
  have hd : (c ++ x).data = c.data ++ x.data := rfl
  rw [hd]
  cases hc : c.data with
  | nil => rw [hc] at h; simp at h
  | cons a t =>
    rw [hc] at h
    simpa using h

theorem joinPath_abs_left (c p : String) (h : isAbs c = true) :
    isAbs (joinPath c p) = true := by
  simp only [joinPath, if_neg (isAbs_ne_empty h)]
  by_cases hp : p = ""
  · rw [if_pos hp]; exact h
  · rw [if_neg hp]
    exact isAbs_append _ _ (isAbs_append _ _ h)

theorem absPath_some (c p : String) :
    absPath (some c) p = .ok (if isAbs p = true then p else joinPath c p) := by
  by_cases h : isAbs p = true
  · simp [absPath, h]
  · simp [absPath, h]

theorem appNameStep2_ends (n g : String) (hg : g ≠ "") :
    strEndsWith (appNameStep2 n g) g = true := by
  by_cases hsuf : strEndsWith n g = true
  · simp [appNameStep2, hsuf]
  · have hb : (g != "") = true := bne_iff_ne.mpr hg
    have hns : strEndsWith n g = false := Bool.eq_false_iff.mpr hsuf
    simp only [appNameStep2, hb, hns, Bool.not_false, Bool.and_self, if_pos]
    exact strEndsWith_append_self n g

theorem joinPath_keeps_ends (wd n g : String) (hg : g ≠ "")
    (h : strEndsWith n g = true) : strEndsWith (joinPath wd n) g = true := by
  have hn : n ≠ "" := strEndsWith_ne_empty hg h
  by_cases hwd : wd = ""
  · simpa [joinPath, hwd] using h
  · simp only [joinPath, if_neg hwd, if_neg hn]
    exact strEndsWith_left_append (wd ++ "/") n g h

theorem appNameStep3_ends (n wd g : String) (hg : g ≠ "")
    (h : strEndsWith n g = true) : strEndsWith (appNameStep3 n wd) g = true := by
  by_cases hcond : (!(strContainsChar n '/') || !(strContainsChar n separator)) = true
  · simp only [appNameStep3, if_pos hcond]
    exact joinPath_keeps_ends wd n g hg h
  · simp only [appNameStep3, if_neg hcond]
    exact h

/-- C3: resolution of the output binary name.  With a resolvable absolute
working directory for os.Getwd, getAppName always succeeds with an absolute
path; an empty output name behaves exactly like passing the base name of wd;
when GOEXE is set the platform suffix is a suffix of the result; and a
non-empty name without a separator (whose GOEXE step is a no-op) is resolved
relative to wd before being made absolute. -/
theorem getAppName_resolution (o wd g c : String) (hc : isAbs c = true) :
    (∃ r, getAppName o wd g (some c) = .ok r ∧ isAbs r = true) ∧
    (o = "" → getAppName o wd g (some c) = getAppName (baseName wd) wd g (some c)) ∧
    (∀ r, getAppName o wd g (some c) = .ok r → g ≠ "" → strEndsWith r g = true) ∧
    (o ≠ "" → strContainsChar o '/' = false → (g = "" ∨ strEndsWith o g = true) →
      getAppName o wd g (some c) = absPath (some c) (joinPath wd o)) := by
  refine ⟨?_, ?_, ?_, ?_⟩
  · rw [getAppName, absPath_some]
    refine ⟨_, rfl, ?_⟩
    by_cases h : isAbs (appNameStep3 (appNameStep2 (appNameStep1 o wd) g) wd) = true
    · rw [if_pos h]; exact h
    · rw [if_neg h]; exact joinPath_abs_left c _ hc
  · intro ho
    subst ho
    have h1 : appNameStep1 "" wd = baseName wd := by simp [appNameStep1]
    have h2 : appNameStep1 (baseName wd) wd = baseName wd := by
      simp [appNameStep1, baseName_ne_empty wd]
    rw [getAppName, getAppName, h1, h2]
  · intro r hr hg
    have hends : strEndsWith
        (appNameStep3 (appNameStep2 (appNameStep1 o wd) g) wd) g = true :=
      appNameStep3_ends _ wd g hg (appNameStep2_ends _ g hg)
    rw [getAppName, absPath_some] at hr
    rw [← Except.ok.inj hr]
    by_cases habs : isAbs (appNameStep3 (appNameStep2 (appNameStep1 o wd) g) wd) = true
    · rw [if_pos habs]; exact hends
    · rw [if_neg habs]
      exact joinPath_keeps_ends c _ g hg hends
  · intro ho hsep hgsuf
    have h1 : appNameStep1 o wd = o := by simp [appNameStep1, ho]
    have h2 : appNameStep2 o g = o := by
      rcases hgsuf with rfl | hsuf
      · simp [appNameStep2]
      · simp [appNameStep2, hsuf]
    have h3 : appNameStep3 o wd = joinPath wd o := by
      simp [appNameStep3, hsep, separator]
    rw [getAppName, h1, h2, h3]

/-- Witness for getAppName_resolution at concrete inputs: an empty output
name under root slash-w resolves to an absolute path, and a plain relative
name is joined onto wd. -/
theorem getAppName_resolution_witness :
    (∃ r, getAppName "" "/w" ".exe" (some "/c") = .ok r ∧ isAbs r = true) ∧
    getAppName "ab" "/w" "" (some "/c") = absPath (some "/c") (joinPath "/w" "ab") :=
  ⟨(getAppName_resolution "" "/w" ".exe" "/c" (by decide)).1,
   (getAppName_resolution "ab" "/w" "" "/c" (by decide)).2.2.2 (by decide) (by decide)
     (Or.inl rfl)⟩

/-! Compiler argument list lemmas. -/

theorem foldl_append_blocks {α β : Type} (f : α → List β) :
    ∀ (l : List α) (init : List β),
      l.foldl (fun acc kv => acc ++ f kv) init = init ++ (l.map f).flatten := by
  intro l
  induction l with
  | nil => intro init; simp
  | cons a t ih =>
    intro init
    simp only [List.foldl_cons, List.map_cons, List.flatten_cons]
    rw [ih (init ++ f a), List.append_assoc]

theorem mem_map_flatten_split {α β : Type} (f : α → List β) :
    ∀ (l : List α) (a : α), a ∈ l →
      ∃ x y, (l.map f).flatten = x ++ f a ++ y := by
  intro l
  induction l with
  | nil => intro a ha; simp at ha
  | cons b t ih =>
    intro a ha
    rcases List.mem_cons.mp ha with rfl | h
    · exact ⟨[], (t.map f).flatten, by simp⟩
    · obtain ⟨x, y, hxy⟩ := ih a h
      refine ⟨f b ++ x, y, ?_⟩
      simp only [List.map_cons, List.flatten_cons, hxy]
      simp [List.append_assoc]

theorem strLength_pos_iff (s : String) : s.length > 0 ↔ s ≠ "" := by
  cases s with
  | mk d =>
    cases d with
    | nil => simp [String.length]
    | cons c cs =>
      simp only [String.length]
      constructor
      · intro _ h
        exact absurd (congrArg String.data h) (by simp)
      · intro _
        simp [List.length_cons]

/-- C7: shape of the compiler argument list built by Build: it is the
literal prefix build, dash-o, the resolved output path, then one consecutive
pair dash-category-flags and value for every entry of the flags map in
iteration order, then dash-v, and finally the mainFiles string exactly when
it is non-empty; in particular every flags entry occurs as a consecutive
pair somewhere in the list. -/
theorem goCmdArgs_shape (appName mainFiles : String)
    (flags : List (String × String)) :
    goCmdArgs appName mainFiles flags =
      ["build", "-o", appName] ++
        (flags.map (fun kv => ["-" ++ kv.1 ++ "flags", kv.2])).flatten ++
        ["-v"] ++ (if mainFiles = "" then [] else [mainFiles]) ∧
    ∀ kv ∈ flags, ∃ l r, goCmdArgs appName mainFiles flags =
      l ++ ["-" ++ kv.1 ++ "flags", kv.2] ++ r := by
  have hshape : goCmdArgs appName mainFiles flags =
      ["build", "-o", appName] ++
        (flags.map (fun kv => ["-" ++ kv.1 ++ "flags", kv.2])).flatten ++
        ["-v"] ++ (if mainFiles = "" then [] else [mainFiles]) := by
    simp only [goCmdArgs]
    rw [foldl_append_blocks]
    by_cases hm : mainFiles = ""
    · have : ¬ mainFiles.length > 0 := by
        rw [strLength_pos_iff]
        simpa using hm
      simp [this, hm, List.append_assoc]
    · have : mainFiles.length > 0 := (strLength_pos_iff mainFiles).mpr hm
      simp [this, hm, List.append_assoc]
  refine ⟨hshape, ?_⟩
  intro kv hkv
  obtain ⟨x, y, hxy⟩ :=
    mem_map_flatten_split (fun kv => ["-" ++ kv.1 ++ "flags", kv.2]) flags kv hkv
  refine ⟨["build", "-o", appName] ++ x,
    y ++ ["-v"] ++ (if mainFiles = "" then [] else [mainFiles]), ?_⟩
  rw [hshape, hxy]
  simp [List.append_assoc]

/-- Witness for goCmdArgs_shape: the single flags entry appears as a
consecutive pair in the constructed argument list. -/
theorem goCmdArgs_shape_witness :
    ∃ l r, goCmdArgs "/out/app" "" [("gc", "-m")] =
      l ++ ["-" ++ "gc" ++ "flags", "-m"] ++ r :=
  (goCmdArgs_shape "/out/app" "" [("gc", "-m")]).2 ("gc", "-m") (by decide)

/-! Build startup lemmas. -/

/-- C8: Build fails before doing anything when no root directory is given:
with an empty dir list the outcome is the dedicated error, no log event has
been emitted and no watching has started.  Likewise, when the primary root
cannot be resolved to an absolute path (os.Getwd fails and the root is
relative) Build returns an error before any log event and before watching,
and when the watch-path expansion fails Build returns that error without
starting to watch. -/
theorem build_startup_errors (env : BuildEnv) (mainFiles outputName : String)
    (flags : List (String × String)) (exts : String) (recursive : Bool)
    (appArgs : String) :
    ((BuildModel env mainFiles outputName flags exts recursive appArgs []).outcome =
        .err "参数 dir 至少指定一个" ∧
      (BuildModel env mainFiles outputName flags exts recursive appArgs []).logs = [] ∧
      (BuildModel env mainFiles outputName flags exts recursive appArgs
        []).watchStarted = false) ∧
    (∀ d ds, env.cwd = none → isAbs d = false →
      ∃ e, (BuildModel env mainFiles outputName flags exts recursive appArgs
          (d :: ds)).outcome = .err e ∧
        (BuildModel env mainFiles outputName flags exts recursive appArgs
          (d :: ds)).logs = [] ∧
        (BuildModel env mainFiles outputName flags exts recursive appArgs
          (d :: ds)).watchStarted = false) ∧
    (∀ d ds wd appName e, absPath env.cwd d = .ok wd →
      getAppName outputName wd env.goexe env.cwd = .ok appName →
      recursivePaths env.fs recursive (wd :: ds) = .error e →
      (BuildModel env mainFiles outputName flags exts recursive appArgs
        (d :: ds)).outcome = .err e ∧
      (BuildModel env mainFiles outputName flags exts recursive appArgs
        (d :: ds)).watchStarted = false) := by
  refine ⟨⟨rfl, rfl, rfl⟩, ?_, ?_⟩
  · intro d ds hcwd habs
    have habsPath : absPath env.cwd d = .error "filepath.Abs: getwd failed" := by
      rw [hcwd]
      simp [absPath, habs]
    exact ⟨"filepath.Abs: getwd failed", by simp [BuildModel, habsPath],
      by simp [BuildModel, habsPath], by simp [BuildModel, habsPath]⟩
  · intro d ds wd appName e h1 h2 h3
    constructor <;> simp [BuildModel, h1, h2, h3]

/-- Environment with a resolvable working directory, no GOEXE, a plain
directory at every root and a watcher that initializes. -/
def env0 : BuildEnv := ⟨some "/c", "", fun _ => FSTree.dir "r" [], fun _ => .ok ()⟩

/-- Environment whose os.Getwd fails. -/
def envNoCwd : BuildEnv := ⟨none, "", fun _ => FSTree.dir "r" [], fun _ => .ok ()⟩

/-- Environment whose file system reports a walk error at every root. -/
def envBadFS : BuildEnv := ⟨some "/c", "", fun _ => FSTree.bad "x", fun _ => .ok ()⟩

/-- Witness for build_startup_errors at concrete inputs covering the three
failure modes. -/
theorem build_startup_errors_witness :
    (BuildModel env0 "" "" [] "" false "" []).outcome = .err "参数 dir 至少指定一个" ∧
    (∃ e, (BuildModel envNoCwd "" "" [] "" false "" ["r"]).outcome = .err e ∧
      (BuildModel envNoCwd "" "" [] "" false "" ["r"]).logs = [] ∧
      (BuildModel envNoCwd "" "" [] "" false "" ["r"]).watchStarted = false) ∧
    ((BuildModel envBadFS "" "" [] "" true "" ["/r"]).outcome = .err "/r" ∧
      (BuildModel envBadFS "" "" [] "" true "" ["/r"]).watchStarted = false) :=
  ⟨(build_startup_errors env0 "" "" [] "" false "").1.1,
   (build_startup_errors envNoCwd "" "" [] "" false "").2.1 "r" [] rfl (by decide),
   (build_startup_errors envBadFS "" "" [] "" true "").2.2 "/r" [] "/r" "/r/r" "/r"
     rfl rfl rfl⟩

/-- C9: Build overwrites the first element of the dir slice of its caller
with the absolute resolution of the primary root before any other work, and
leaves the remaining elements unchanged; this holds in every later branch,
including all subsequent failure branches. -/
theorem build_mutates_dir (env : BuildEnv) (mainFiles outputName : String)
    (flags : List (String × String)) (exts : String) (recursive : Bool)
    (appArgs : String) (d : String) (ds : List String) (wd : String)
    (h : absPath env.cwd d = .ok wd) :
    (BuildModel env mainFiles outputName flags exts recursive appArgs
      (d :: ds)).dirAfter = wd :: ds := by
  simp only [BuildModel, h]
  cases hg : getAppName outputName wd env.goexe env.cwd with
  | error e => simp [hg]
  | ok appName =>
    cases hr : recursivePaths env.fs recursive (wd :: ds) with
    | error e => simp [hg, hr]
    | ok paths =>
      cases hw : env.watcherInit paths with
      | error e => simp [hg, hr, hw]
      | ok u => simp [hg, hr, hw]

/-- Witness for build_mutates_dir: a relative primary root is replaced by
its absolute resolution while the second root stays unchanged. -/
theorem build_mutates_dir_witness :
    (BuildModel env0 "" "" [] "" false "" ["a", "b"]).dirAfter = ["/c/a", "b"] :=
  build_mutates_dir env0 "" "" [] "" false "" "a" ["b"] "/c/a" rfl

/-- C10: Build never reaches its normal return: on every call the outcome is
either a startup error (bad arguments, path resolution, expansion or watcher
initialization) or the eternal block on the fresh channel, never the done
outcome that would correspond to returning nil. -/
theorem build_no_normal_return (env : BuildEnv) (mainFiles outputName : String)
    (flags : List (String × String)) (exts : String) (recursive : Bool)
    (appArgs : String) (dir : List String) :
    ((∃ m, (BuildModel env mainFiles outputName flags exts recursive appArgs
        dir).outcome = .err m) ∨
      (BuildModel env mainFiles outputName flags exts recursive appArgs
        dir).outcome = .blocked) ∧
    (BuildModel env mainFiles outputName flags exts recursive appArgs
      dir).outcome ≠ .done := by
  cases dir with
  | nil => exact ⟨Or.inl ⟨_, rfl⟩, by simp [BuildModel]⟩
  | cons d ds =>
    cases habs : absPath env.cwd d with
    | error e =>
      exact ⟨Or.inl ⟨e, by simp [BuildModel, habs]⟩, by simp [BuildModel, habs]⟩
    | ok wd =>
      cases hg : getAppName outputName wd env.goexe env.cwd with
      | error e =>
        exact ⟨Or.inl ⟨e, by simp [BuildModel, habs, hg]⟩,
          by simp [BuildModel, habs, hg]⟩
      | ok appName =>
        cases hr : recursivePaths env.fs recursive (wd :: ds) with
        | error e =>
          exact ⟨Or.inl ⟨e, by simp [BuildModel, habs, hg, hr]⟩,
            by simp [BuildModel, habs, hg, hr]⟩
        | ok paths =>
          cases hw : env.watcherInit paths with
          | error e =>
            exact ⟨Or.inl ⟨e, by simp [BuildModel, habs, hg, hr, hw]⟩,
              by simp [BuildModel, habs, hg, hr, hw]⟩
          | ok u =>
            exact ⟨Or.inr (by simp [BuildModel, habs, hg, hr, hw]),
              by simp [BuildModel, habs, hg, hr, hw]⟩
